import Mathlib

/-!
Verification of the sysctl-parser pipeline.

A shallow embedding of the sysctl-style configuration parser:
the value model (`ConfigValue`), the nested-key inserter
(`insert_nested_key` / `insert_recursive`), the line classifier
(`parse_line_content`), the document assembler
(`parse_config_lines` / `parse_sysctl_conf_to_nested`), and the schema
line parser and validator (`Schema.parse_line`, `Schema.parse_scheme`,
`Schema.validate_config`).

Input text is modelled as `List Char`.  `BTreeMap<String, ConfigValue>`
is modelled as an association list `List (String × ConfigValue)`;
`mapInsert` keeps the list sorted by key exactly as the B-tree does, and
on the sorted duplicate-free lists that arise from parsing it agrees
with in-place update.  The nom combinators used by the source
(`take_till`, `line_ending`, `separated_list0`, `opt`, `tag`,
`take_while1`, `space0`, `alt`) are embedded over `List Char`; parser
failure (`nom::Err::Error`) is `none` / `Except.error`.
-/

/-- Rust `char::is_whitespace`: the Unicode `White_Space` property. -/
def rustIsWhitespace (c : Char) : Bool :=
  c.val = 0x09 || c.val = 0x0A || c.val = 0x0B || c.val = 0x0C || c.val = 0x0D ||
  c.val = 0x20 || c.val = 0x85 || c.val = 0xA0 || c.val = 0x1680 ||
  (0x2000 ≤ c.val && c.val ≤ 0x200A) ||
  c.val = 0x2028 || c.val = 0x2029 || c.val = 0x202F || c.val = 0x205F || c.val = 0x3000

/-- Rust `str::trim_start`. -/
def trimStartRust (l : List Char) : List Char :=
  l.dropWhile rustIsWhitespace

/-- Rust `str::trim` (both ends). -/
def trimRust (l : List Char) : List Char :=
  ((l.dropWhile rustIsWhitespace).reverse.dropWhile rustIsWhitespace).reverse

/-- nom `take_till` (complete): `(taken, remaining)`, never fails;
the remainder is empty or starts with a character satisfying `p`. -/
def take_till (p : Char → Bool) : List Char → List Char × List Char
  | [] => ([], [])
  | c :: rest =>
    if p c then ([], c :: rest)
    else
      let r := take_till p rest
      (c :: r.1, r.2)

/-- nom `character::complete::line_ending`: consumes `"\n"` or `"\r\n"`,
fails (`none`) otherwise — in particular on a bare `'\r'`. -/
def line_ending : List Char → Option (List Char)
  | '\n' :: rest => some rest
  | '\r' :: '\n' :: rest => some rest
  | _ => none

/-- Rust `str::split('.')`: the list of `'.'`-separated chunks; never empty,
empty chunks are kept (`"" ↦ [""]`, `"a..b" ↦ ["a","","b"]`). -/
def split_dot : List Char → List (List Char)
  | [] => [[]]
  | c :: rest =>
    if c = '.' then [] :: split_dot rest
    else
      match split_dot rest with
      | [] => [[c]]
      | s :: ss => (c :: s) :: ss

/-- The value model: `ConfigValue::Str` / `ConfigValue::Table`
(`BTreeMap` as a key-sorted association list). -/
inductive ConfigValue where
  | Str : String → ConfigValue
  | Table : List (String × ConfigValue) → ConfigValue
deriving Repr

/-- Lexicographic order on char lists by Unicode scalar value; on valid
UTF-8 this agrees with Rust's byte-lexicographic `Ord` for `String`. -/
def charListLt : List Char → List Char → Bool
  | [], [] => false
  | [], _ :: _ => true
  | _ :: _, [] => false
  | a :: as, b :: bs =>
    if a.toNat < b.toNat then true
    else if a.toNat = b.toNat then charListLt as bs
    else false

/-- Rust `Ord` for `String` (used by `BTreeMap`). -/
def strLt (a b : String) : Bool :=
  charListLt a.data b.data

/-- Model of `BTreeMap::get`. -/
def mapGet (k : String) : List (String × ConfigValue) → Option ConfigValue
  | [] => none
  | (k0, v0) :: rest => if k0 = k then some v0 else mapGet k rest

/-- Model of `BTreeMap::insert` (also covers in-place update through `get_mut`):
insert at the key-sorted position, replacing an existing binding. -/
def mapInsert (k : String) (v : ConfigValue) :
    List (String × ConfigValue) → List (String × ConfigValue)
  | [] => [(k, v)]
  | (k0, v0) :: rest =>
    if strLt k k0 then (k, v) :: (k0, v0) :: rest
    else if k = k0 then (k, v) :: rest
    else (k0, v0) :: mapInsert k v rest

/-- Embedding of `insert_recursive` from `lib.rs`: walk the segment list, overriding on
the last segment and descending (through an existing table, or a fresh one
if the key is absent or bound to a string) otherwise.  The Rust function
indexes `parts[0]` and so is never called with an empty slice
(`split('.')` always yields at least one chunk); the `[]` case returns the
map unchanged. -/
def insert_recursive (current_map : List (String × ConfigValue))
    (parts : List String) (val : String) : List (String × ConfigValue) :=
  match parts with
  | [] => current_map
  | [p] => mapInsert p (ConfigValue.Str val) current_map
  | head :: tail =>
    match mapGet head current_map with
    | some (ConfigValue.Table sub_map) =>
      mapInsert head (ConfigValue.Table (insert_recursive sub_map tail val)) current_map
    | some (ConfigValue.Str _) =>
      mapInsert head (ConfigValue.Table (insert_recursive [] tail val)) current_map
    | none =>
      mapInsert head (ConfigValue.Table (insert_recursive [] tail val)) current_map

/-- Embedding of `insert_nested_key` from `lib.rs`: split the dotted key and insert. -/
def insert_nested_key (root : List (String × ConfigValue))
    (key : String) (val : String) : List (String × ConfigValue) :=
  insert_recursive root ((split_dot key.data).map String.mk) val

example : insert_nested_key [] "a.b" "x" =
    [("a", ConfigValue.Table [("b", ConfigValue.Str "x")])] := rfl

example : insert_nested_key [("a", ConfigValue.Str "x")] "a.b" "y" =
    [("a", ConfigValue.Table [("b", ConfigValue.Str "y")])] := rfl

/-- Embedding of `ParsedLine` from `lib.rs`. -/
inductive ParsedLine where
  | Comment : String → ParsedLine
  | Setting : String → String → ParsedLine
  | Empty : ParsedLine
deriving Repr, DecidableEq

/-- Model of `trimmed.find('=')`: split at the first `'='` — `some (before, after)`
with the `'='` itself dropped — or `none` when there is no `'='`. -/
def splitAtEq : List Char → Option (List Char × List Char)
  | [] => none
  | c :: rest =>
    if c = '=' then some ([], rest)
    else
      match splitAtEq rest with
      | none => none
      | some (a, b) => some (c :: a, b)

/-- Embedding of `parse_line_content` from `lib.rs`.  The Rust function returns
`IResult<&str, ParsedLine>` but every path returns `Ok(("", …))`, so it is
embedded as a total function. -/
def parse_line_content (input : List Char) : ParsedLine :=
  match trimStartRust input with
  | [] => ParsedLine.Empty
  | c :: rest =>
    if c = '#' then ParsedLine.Comment (String.mk (trimRust rest))
    else
      match splitAtEq (c :: rest) with
      | some (key, value) =>
        ParsedLine.Setting (String.mk (trimRust key)) (String.mk (trimRust value))
      | none => ParsedLine.Empty

/-- Embedding of `parse_line` from `lib.rs`: take everything up to `'\r'`/`'\n'`, classify
it; returns `(remaining, parsed)`. -/
def parse_line (input : List Char) : List Char × ParsedLine :=
  let r := take_till (fun c => c = '\r' || c = '\n') input
  (r.2, parse_line_content r.1)

/-- The iteration of nom `separated_list0(line_ending, parse_line)` after the
first element: repeatedly consume a separator and an element, stopping with
`ok` when the separator fails; `separated_list0` errors if a successful
separator consumed no input (its infinite-loop guard — dead here, since
`line_ending` always consumes).  The `Nat` argument is structural fuel
bounding the iteration count; each iteration consumes at least one character
through `line_ending`, so any fuel exceeding the input length is enough and
the `0` branch is unreachable from `parse_config_lines`. -/
def parseConfigLoop : Nat → List Char → Except String (List ParsedLine × List Char)
  | 0, _ => .error "out of fuel"
  | n + 1, i =>
    match line_ending i with
    | none => .ok ([], i)
    | some i1 =>
      if i1.length = i.length then .error "separated_list0: infinite loop"
      else
        let r := parse_line i1
        match parseConfigLoop n r.1 with
        | .error e => .error e
        | .ok (pls, rem) => .ok (r.2 :: pls, rem)

/-- The filter in `parse_config_lines`: keep only `Setting` lines. -/
def toSetting : ParsedLine → Option (String × String)
  | .Setting k v => some (k, v)
  | _ => none

/-- Embedding of `parse_config_lines` from `lib.rs`:
`separated_list0(line_ending, parse_line)`, filter to the `Setting` lines,
then `opt(line_ending)` on the remainder. -/
def parse_config_lines (input : List Char) :
    Except String (List (String × String) × List Char) :=
  let r0 := parse_line input
  match parseConfigLoop (r0.1.length + 1) r0.1 with
  | .error e => .error e
  | .ok (pls, rem) =>
    let settings := (r0.2 :: pls).filterMap toSetting
    let rem2 := match line_ending rem with
      | some r => r
      | none => rem
    .ok (settings, rem2)

/-- Embedding of `parse_sysctl_conf_to_nested` from `lib.rs`: assemble the root table by
folding `insert_nested_key` over the settings, in input order. -/
def parse_sysctl_conf_to_nested (input : List Char) :
    Except String (List (String × ConfigValue)) :=
  match parse_config_lines input with
  | .ok (kvs, _) =>
    .ok (kvs.foldl (fun root kv => insert_nested_key root kv.1 kv.2) [])
  | .error e => .error ("Parse error: " ++ e)

example : parse_sysctl_conf_to_nested "endpoint = localhost:3000\nlog.file = /var/log/c.log\nlog.level = info\n".data =
    .ok [("endpoint", ConfigValue.Str "localhost:3000"),
         ("log", ConfigValue.Table
            [("file", ConfigValue.Str "/var/log/c.log"),
             ("level", ConfigValue.Str "info")])] := rfl

example : parse_sysctl_conf_to_nested "# comment only\n".data = .ok [] := rfl

example : parse_sysctl_conf_to_nested "username=admin\npassword=secret".data =
    .ok [("password", ConfigValue.Str "secret"),
         ("username", ConfigValue.Str "admin")] := rfl

example : parse_sysctl_conf_to_nested "a=1\rb=2".data =
    .ok [("a", ConfigValue.Str "1")] := rfl

namespace Schema

/-- Embedding of `SchemeType` from `schema.rs`. -/
inductive SchemeType where
  | Bool : SchemeType
  | String : SchemeType
deriving Repr, DecidableEq

/-- Embedding of `SchemeField` from `schema.rs`. -/
structure SchemeField where
  name : String
  field_type : SchemeType
deriving Repr, DecidableEq

/-- nom `take_while1 p`: consumes the longest non-empty prefix satisfying
`p`, failing (`none`) on an empty match; returns `(taken, remaining)`. -/
def take_while1 (p : Char → Bool) (i : List Char) :
    Option (List Char × List Char) :=
  match i with
  | [] => none
  | c :: _ => if p c then some (i.takeWhile p, i.dropWhile p) else none

/-- nom `space0`: consumes zero or more spaces and tabs; never fails. -/
def space0 (i : List Char) : List Char :=
  i.dropWhile (fun c => c = ' ' || c = '\t')

/-- nom `tag("->")`. -/
def tagArrow : List Char → Option (List Char)
  | '-' :: '>' :: rest => some rest
  | _ => none

/-- Embedding of `parse_field_type` from `schema.rs`:
`alt((tag("bool"), tag("string")))`, mapped to `SchemeType`. -/
def parse_field_type : List Char → Option (List Char × SchemeType)
  | 'b' :: 'o' :: 'o' :: 'l' :: rest => some (rest, SchemeType.Bool)
  | 's' :: 't' :: 'r' :: 'i' :: 'n' :: 'g' :: rest => some (rest, SchemeType.String)
  | _ => none

/-- The character class of `parse_identifier`: Rust
`c.is_alphanumeric() || c == '_'`.  Rust's `is_alphanumeric` is the Unicode
class; it is modelled by the ASCII alphanumerics, which is the fragment the
schema claims exercise. -/
def isIdentChar (c : Char) : Bool :=
  c.isAlphanum || c = '_'

/-- Embedding of `parse_identifier` from `schema.rs`: `take_while1` over `isIdentChar`,
converted to an owned string. -/
def parse_identifier (i : List Char) : Option (List Char × String) :=
  match take_while1 isIdentChar i with
  | none => none
  | some (ident, rest) => some (rest, String.mk ident)

/-- Embedding of `parse_line` from `schema.rs`: `identifier`, optional spaces, `"->"`,
optional spaces, `bool`/`string`. -/
def parse_line (i : List Char) : Option (List Char × SchemeField) :=
  match parse_identifier i with
  | none => none
  | some (i1, name) =>
    match tagArrow (space0 i1) with
    | none => none
    | some i3 =>
      match parse_field_type (space0 i3) with
      | none => none
      | some (i5, ft) => some (i5, ⟨name, ft⟩)

/-- The iteration of nom `separated_list0(line_ending, parse_line)` after the
first schema field, in the style of `parseConfigLoop`: when either the
separator or the following line fails, stop with `ok`, backtracking to before
the separator.  Fuel exceeding the input length is always enough, since every
iteration consumes at least one character through `line_ending`. -/
def parse_scheme_loop : Nat → List Char → Except String (List SchemeField × List Char)
  | 0, _ => .error "out of fuel"
  | n + 1, i =>
    match line_ending i with
    | none => .ok ([], i)
    | some i1 =>
      if i1.length = i.length then .error "separated_list0: infinite loop"
      else
        match parse_line i1 with
        | none => .ok ([], i)
        | some (i2, f) =>
          match parse_scheme_loop n i2 with
          | .error e => .error e
          | .ok (fs, rem) => .ok (f :: fs, rem)

/-- Embedding of `parse_scheme` from `schema.rs`:
`separated_list0(line_ending, parse_line)`. -/
def parse_scheme (input : List Char) :
    Except String (List SchemeField × List Char) :=
  match parse_line input with
  | none => .ok ([], input)
  | some (i1, f) =>
    match parse_scheme_loop (i1.length + 1) i1 with
    | .error e => .error e
    | .ok (fs, rem) => .ok (f :: fs, rem)

/-- Embedding of `validate_config` from `schema.rs`: walk the schema in declaration
order, returning the first error (missing field, non-`true`/`false` bool
leaf, or table where a leaf is required) and `ok` if every field passes. -/
def validate_config (schema : List SchemeField)
    (config : List (String × ConfigValue)) : Except String Unit :=
  match schema with
  | [] => .ok ()
  | field :: rest =>
    match mapGet field.name config with
    | none => .error ("Missing required field: '" ++ field.name ++ "'")
    | some value =>
      match field.field_type, value with
      | SchemeType.Bool, ConfigValue.Str s =>
        if s ≠ "true" ∧ s ≠ "false" then
          .error ("Field '" ++ field.name ++ "' must be a bool ('true'/'false'), got: '" ++ s ++ "'")
        else validate_config rest config
      | SchemeType.Bool, ConfigValue.Table _ =>
        .error ("Field '" ++ field.name ++ "' must be a bool, but found a nested table.")
      | SchemeType.String, ConfigValue.Str _ => validate_config rest config
      | SchemeType.String, ConfigValue.Table _ =>
        .error ("Field '" ++ field.name ++ "' must be a string, but found a nested table.")

example : parse_scheme "is_active -> bool\nusername -> string".data =
    .ok ([⟨"is_active", SchemeType.Bool⟩, ⟨"username", SchemeType.String⟩], []) := rfl

example : parse_scheme "x -> int".data = .ok ([], "x -> int".data) := rfl

example : validate_config [⟨"is_active", SchemeType.Bool⟩, ⟨"username", SchemeType.String⟩]
    [("is_active", ConfigValue.Str "true"), ("username", ConfigValue.Str "Alice")] = .ok () := rfl

example : validate_config [⟨"is_active", SchemeType.Bool⟩, ⟨"username", SchemeType.String⟩]
    [("is_active", ConfigValue.Str "false")] =
    .error "Missing required field: 'username'" := rfl

example : validate_config [⟨"is_active", SchemeType.Bool⟩]
    [("is_active", ConfigValue.Str "yes")] =
    .error "Field 'is_active' must be a bool ('true'/'false'), got: 'yes'" := rfl

end Schema

/-! Basic properties of the splitting primitives. -/

theorem take_till_rem_length (p : Char → Bool) (i : List Char) :
    (take_till p i).2.length ≤ i.length := by
  induction i with
  | nil => simp [take_till]
  | cons c rest ih =>
    simp only [take_till]
    split
    · simp
    · simpa using Nat.le_succ_of_le ih

theorem take_till_no_stop (p : Char → Bool) (a : List Char)
    (h : ∀ c ∈ a, p c = false) : take_till p a = (a, []) := by
  induction a with
  | nil => rfl
  | cons c rest ih =>
    simp only [take_till, h c (List.mem_cons_self c rest)]
    simp only [Bool.false_eq_true, if_false]
    rw [ih fun x hx => h x (List.mem_cons_of_mem c hx)]

theorem take_till_append (p : Char → Bool) (a b : List Char)
    (h : ∀ c ∈ a, p c = false) :
    take_till p (a ++ b) = (a ++ (take_till p b).1, (take_till p b).2) := by
  induction a with
  | nil => simp
  | cons c rest ih =>
    simp only [List.cons_append, take_till, h c (List.mem_cons_self c rest)]
    simp only [Bool.false_eq_true, if_false, List.append_eq]
    rw [ih fun x hx => h x (List.mem_cons_of_mem c hx)]

theorem take_till_stop (p : Char → Bool) (c : Char) (r : List Char)
    (h : p c = true) : take_till p (c :: r) = ([], c :: r) := by
  simp [take_till, h]

theorem line_ending_cases {i r : List Char} (h : line_ending i = some r) :
    i = '\n' :: r ∨ i = '\r' :: '\n' :: r := by
  rw [line_ending.eq_def] at h
  split at h
  · left; injection h with h; rw [h]
  · right; injection h with h; rw [h]
  · exact absurd h (by simp)

theorem line_ending_length {i r : List Char} (h : line_ending i = some r) :
    r.length < i.length := by
  rcases line_ending_cases h with hi | hi <;> subst hi <;> simp_arith

/-! Fuel handling for the `separated_list0` loop. -/

theorem parse_line_rem_length (i : List Char) :
    (parse_line i).1.length ≤ i.length :=
  take_till_rem_length _ i

theorem parseConfigLoop_fuel : ∀ (n m : Nat) (i : List Char),
    i.length < n → i.length < m → parseConfigLoop n i = parseConfigLoop m i := by
  intro n
  induction n with
  | zero => intro m i h; omega
  | succ n ih =>
    intro m i hn hm
    match m, hm with
    | m + 1, hm =>
      simp only [parseConfigLoop]
      match hle : line_ending i with
      | none => rfl
      | some i1 =>
        have hlt : i1.length < i.length := line_ending_length hle
        simp only []
        split
        · rfl
        · have hr : (parse_line i1).1.length ≤ i1.length := parse_line_rem_length i1
          rw [ih m ((parse_line i1).1) (by omega) (by omega)]

theorem parseConfigLoop_ok : ∀ (n : Nat) (i : List Char), i.length < n →
    ∃ r, parseConfigLoop n i = .ok r := by
  intro n
  induction n with
  | zero => intro i h; omega
  | succ n ih =>
    intro i hn
    simp only [parseConfigLoop]
    match hle : line_ending i with
    | none => exact ⟨([], i), rfl⟩
    | some i1 =>
      have hlt : i1.length < i.length := line_ending_length hle
      simp only []
      rw [if_neg (by omega)]
      have hr : (parse_line i1).1.length ≤ i1.length := parse_line_rem_length i1
      obtain ⟨⟨pls, rem⟩, hok⟩ := ih ((parse_line i1).1) (by omega)
      rw [hok]
      exact ⟨((parse_line i1).2 :: pls, rem), rfl⟩

theorem parse_config_lines_ok (input : List Char) :
    ∃ r, parse_config_lines input = .ok r := by
  obtain ⟨⟨pls, rem⟩, hok⟩ :=
    parseConfigLoop_ok ((parse_line input).1.length + 1) ((parse_line input).1)
      (Nat.lt_succ_self _)
  simp only [parse_config_lines, hok]
  exact ⟨_, rfl⟩

/-- C8: the document assembler is infallible — for every input text,
`parse_sysctl_conf_to_nested` returns `Ok` with an assembled root table,
and its error branch is never taken. -/
theorem C8_assembler_infallible (input : List Char) :
    ∃ root, parse_sysctl_conf_to_nested input = .ok root := by
  obtain ⟨⟨kvs, rem⟩, hok⟩ := parse_config_lines_ok input
  simp only [parse_sysctl_conf_to_nested, hok]
  exact ⟨_, rfl⟩

/-! Association-list map lemmas. -/

theorem mapGet_mapInsert_self (k : String) (v : ConfigValue)
    (m : List (String × ConfigValue)) : mapGet k (mapInsert k v m) = some v := by
  induction m with
  | nil => simp [mapInsert, mapGet]
  | cons kv rest ih =>
    obtain ⟨k0, v0⟩ := kv
    simp only [mapInsert]
    split
    · simp [mapGet]
    · split
      · simp [mapGet]
      · next hne =>
        simp only [mapGet]
        rw [if_neg fun hh => hne hh.symm]
        exact ih

theorem mapGet_mapInsert_ne (k k' : String) (hne : k ≠ k') (v : ConfigValue)
    (m : List (String × ConfigValue)) :
    mapGet k (mapInsert k' v m) = mapGet k m := by
  induction m with
  | nil =>
    simp only [mapInsert, mapGet]
    rw [if_neg fun hh => hne hh.symm]
  | cons kv rest ih =>
    obtain ⟨k0, v0⟩ := kv
    simp only [mapInsert]
    split
    · simp only [mapGet]
      rw [if_neg fun hh => hne hh.symm]
    · split
      · next heq =>
        subst heq
        simp only [mapGet]
        rw [if_neg fun hh => hne hh.symm, if_neg fun hh => hne hh.symm]
      · simp only [mapGet]
        split
        · rfl
        · exact ih

/-- C2: `insert_recursive` follows override semantics.  At the last segment
the entry is set to a leaf, unconditionally replacing any previous value
while leaving other keys alone; at a non-last segment an absent key gets a
fresh empty table, an existing table is recursed into in place, and an
existing leaf is discarded and replaced by a fresh table — and, being a
total function, it errors in no case. -/
theorem C2_insert_override_semantics :
    (∀ (m : List (String × ConfigValue)) (s v : String),
      mapGet s (insert_recursive m [s] v) = some (ConfigValue.Str v)) ∧
    (∀ (m : List (String × ConfigValue)) (s v k : String), k ≠ s →
      mapGet k (insert_recursive m [s] v) = mapGet k m) ∧
    (∀ (m : List (String × ConfigValue)) (h : String) (tail : List String)
        (v : String), tail ≠ [] → mapGet h m = none →
      insert_recursive m (h :: tail) v =
        mapInsert h (ConfigValue.Table (insert_recursive [] tail v)) m) ∧
    (∀ (m : List (String × ConfigValue)) (h : String) (tail : List String)
        (v : String) (t : List (String × ConfigValue)), tail ≠ [] →
        mapGet h m = some (ConfigValue.Table t) →
      insert_recursive m (h :: tail) v =
        mapInsert h (ConfigValue.Table (insert_recursive t tail v)) m) ∧
    (∀ (m : List (String × ConfigValue)) (h : String) (tail : List String)
        (v s : String), tail ≠ [] → mapGet h m = some (ConfigValue.Str s) →
      insert_recursive m (h :: tail) v =
        mapInsert h (ConfigValue.Table (insert_recursive [] tail v)) m) := by
  refine ⟨?_, ?_, ?_, ?_, ?_⟩
  · intro m s v
    simp only [insert_recursive]
    exact mapGet_mapInsert_self s (ConfigValue.Str v) m
  · intro m s v k hk
    simp only [insert_recursive]
    exact mapGet_mapInsert_ne k s hk (ConfigValue.Str v) m
  · intro m h tail v htail hget
    obtain ⟨t0, ts, rfl⟩ := List.exists_cons_of_ne_nil htail
    simp [insert_recursive, hget]
  · intro m h tail v t htail hget
    obtain ⟨t0, ts, rfl⟩ := List.exists_cons_of_ne_nil htail
    simp [insert_recursive, hget]
  · intro m h tail v s htail hget
    obtain ⟨t0, ts, rfl⟩ := List.exists_cons_of_ne_nil htail
    simp [insert_recursive, hget]

/-- Witness for C2 at concrete inputs, discharging each hypothesis. -/
theorem C2_insert_override_semantics_witness :
    mapGet "a" (insert_recursive [("a", ConfigValue.Table [("c", ConfigValue.Str "z")])] ["a"] "x")
      = some (ConfigValue.Str "x") ∧
    mapGet "q" (insert_recursive [("q", ConfigValue.Str "w")] ["a"] "x")
      = mapGet "q" [("q", ConfigValue.Str "w")] ∧
    insert_recursive [] ["a", "b"] "x"
      = mapInsert "a" (ConfigValue.Table (insert_recursive [] ["b"] "x")) [] ∧
    insert_recursive [("a", ConfigValue.Table [("c", ConfigValue.Str "z")])] ["a", "b"] "x"
      = mapInsert "a" (ConfigValue.Table
          (insert_recursive [("c", ConfigValue.Str "z")] ["b"] "x"))
          [("a", ConfigValue.Table [("c", ConfigValue.Str "z")])] ∧
    insert_recursive [("a", ConfigValue.Str "w")] ["a", "b"] "x"
      = mapInsert "a" (ConfigValue.Table (insert_recursive [] ["b"] "x"))
          [("a", ConfigValue.Str "w")] :=
  ⟨C2_insert_override_semantics.1 _ "a" "x",
   C2_insert_override_semantics.2.1 _ "a" "x" "q" (by decide),
   C2_insert_override_semantics.2.2.1 [] "a" ["b"] "x" (by decide) rfl,
   C2_insert_override_semantics.2.2.2.1 _ "a" ["b"] "x" _ (by decide) rfl,
   C2_insert_override_semantics.2.2.2.2 _ "a" ["b"] "x" "w" (by decide) rfl⟩

/-! Path lookup, node counting, and the shape of a single insertion. -/

/-- Lookup along a dotted path: descend through tables on the non-last
segments and read the entry at the last one. -/
def getPath : List (String × ConfigValue) → List String → Option ConfigValue
  | _, [] => none
  | m, [s] => mapGet s m
  | m, s :: rest =>
    match mapGet s m with
    | some (ConfigValue.Table t) => getPath t rest
    | _ => none

mutual
/-- Number of `Table` nodes in a value. -/
def countTables : ConfigValue → Nat
  | ConfigValue.Str _ => 0
  | ConfigValue.Table m => 1 + countTablesM m
/-- Number of `Table` nodes below a map. -/
def countTablesM : List (String × ConfigValue) → Nat
  | [] => 0
  | (_, v) :: rest => countTables v + countTablesM rest
end

mutual
/-- Number of `Str` leaves in a value. -/
def countLeaves : ConfigValue → Nat
  | ConfigValue.Str _ => 1
  | ConfigValue.Table m => countLeavesM m
/-- Number of `Str` leaves below a map. -/
def countLeavesM : List (String × ConfigValue) → Nat
  | [] => 0
  | (_, v) :: rest => countLeaves v + countLeavesM rest
end

/-- The chain of singleton tables ending in one leaf, along the given
segments: the shape the spec ascribes to a single dotted-key insertion. -/
def nestedSingleton : List String → String → List (String × ConfigValue)
  | [], _ => []
  | [s], v => [(s, ConfigValue.Str v)]
  | s :: rest, v => [(s, ConfigValue.Table (nestedSingleton rest v))]

theorem insert_recursive_empty (segs : List String) (v : String)
    (hne : segs ≠ []) : insert_recursive [] segs v = nestedSingleton segs v := by
  induction segs with
  | nil => exact absurd rfl hne
  | cons s rest ih =>
    match rest with
    | [] => rfl
    | r0 :: rs =>
      simp only [insert_recursive, mapGet, nestedSingleton, mapInsert]
      rw [ih (by simp)]

theorem nestedSingleton_tables (segs : List String) (v : String)
    (hne : segs ≠ []) :
    countTablesM (nestedSingleton segs v) = segs.length - 1 := by
  induction segs with
  | nil => exact absurd rfl hne
  | cons s rest ih =>
    match rest with
    | [] => simp [nestedSingleton, countTablesM, countTables]
    | r0 :: rs =>
      simp only [nestedSingleton, countTablesM, countTables]
      rw [ih (by simp)]
      simp
      omega

theorem nestedSingleton_leaves (segs : List String) (v : String)
    (hne : segs ≠ []) : countLeavesM (nestedSingleton segs v) = 1 := by
  induction segs with
  | nil => exact absurd rfl hne
  | cons s rest ih =>
    match rest with
    | [] => simp [nestedSingleton, countLeavesM, countLeaves]
    | r0 :: rs =>
      simp only [nestedSingleton, countLeavesM, countLeaves]
      rw [ih (by simp)]

theorem nestedSingleton_getPath (segs : List String) (v : String)
    (hne : segs ≠ []) :
    getPath (nestedSingleton segs v) segs = some (ConfigValue.Str v) := by
  induction segs with
  | nil => exact absurd rfl hne
  | cons s rest ih =>
    match rest with
    | [] => simp [nestedSingleton, getPath, mapGet]
    | r0 :: rs =>
      simp only [nestedSingleton, getPath, mapGet, if_pos rfl]
      exact ih (by simp)

theorem split_dot_ne_nil (l : List Char) : split_dot l ≠ [] := by
  match l with
  | [] => simp [split_dot]
  | c :: rest =>
    simp only [split_dot]
    split
    · simp
    · split <;> simp

theorem split_dot_no_dot (l : List Char) (h : '.' ∉ l) : split_dot l = [l] := by
  induction l with
  | nil => rfl
  | cons c rest ih =>
    have hc : c ≠ '.' := fun hh => h (hh ▸ List.mem_cons_self c rest)
    simp only [split_dot, if_neg hc]
    rw [ih fun hm => h (List.mem_cons_of_mem c hm)]

theorem split_dot_append (s t : List Char) (h : '.' ∉ s) :
    split_dot (s ++ '.' :: t) = s :: split_dot t := by
  induction s with
  | nil => simp [split_dot]
  | cons c rest ih =>
    have hc : c ≠ '.' := fun hh => h (hh ▸ List.mem_cons_self c rest)
    rw [List.cons_append]
    simp only [split_dot, if_neg hc]
    rw [ih fun hm => h (List.mem_cons_of_mem c hm)]

theorem split_dot_intercalate (segs : List (List Char)) (hne : segs ≠ [])
    (hdot : ∀ s ∈ segs, '.' ∉ s) :
    split_dot (List.intercalate ['.'] segs) = segs := by
  induction segs with
  | nil => exact absurd rfl hne
  | cons s rest ih =>
    match rest with
    | [] => simpa [List.intercalate] using
        split_dot_no_dot s (hdot s (List.mem_cons_self s []))
    | r0 :: rs =>
      have : List.intercalate ['.'] (s :: r0 :: rs) =
          s ++ '.' :: List.intercalate ['.'] (r0 :: rs) := by
        simp [List.intercalate, List.intersperse]
      rw [this, split_dot_append s _ (hdot s (List.mem_cons_self s _)),
        ih (by simp) fun x hx => hdot x (List.mem_cons_of_mem s hx)]

/-- C6: inserting a single n-segment dotted key with value `v` into an empty
root produces exactly `n − 1` nested tables plus one leaf, reachable along
the path of the `n` segments in order. -/
theorem C6_dotted_path_depth (segs : List (List Char)) (v : String)
    (hne : segs ≠ []) (hdot : ∀ s ∈ segs, '.' ∉ s) :
    getPath (insert_nested_key [] (String.mk (List.intercalate ['.'] segs)) v)
        (segs.map String.mk) = some (ConfigValue.Str v) ∧
    countTablesM (insert_nested_key [] (String.mk (List.intercalate ['.'] segs)) v)
      = segs.length - 1 ∧
    countLeavesM (insert_nested_key [] (String.mk (List.intercalate ['.'] segs)) v)
      = 1 := by
  have hmapne : segs.map String.mk ≠ [] := by
    intro hh
    exact hne (List.map_eq_nil_iff.mp hh)
  have hroot : insert_nested_key [] (String.mk (List.intercalate ['.'] segs)) v
      = nestedSingleton (segs.map String.mk) v := by
    unfold insert_nested_key
    show insert_recursive [] ((split_dot (List.intercalate ['.'] segs)).map String.mk) v = _
    rw [split_dot_intercalate segs hne hdot]
    exact insert_recursive_empty _ v hmapne
  rw [hroot]
  refine ⟨nestedSingleton_getPath _ v hmapne, ?_, nestedSingleton_leaves _ v hmapne⟩
  rw [nestedSingleton_tables _ v hmapne, List.length_map]

/-- Witness for C6 at the spec's example `a.b.c.d = x`. -/
theorem C6_dotted_path_depth_witness :
    ([['a'], ['b'], ['c'], ['d']] ≠ ([] : List (List Char))) ∧
    (∀ s ∈ [['a'], ['b'], ['c'], ['d']], '.' ∉ s) ∧
    (getPath (insert_nested_key []
        (String.mk (List.intercalate ['.'] [['a'], ['b'], ['c'], ['d']])) "x")
        ([['a'], ['b'], ['c'], ['d']].map String.mk) = some (ConfigValue.Str "x") ∧
     countTablesM (insert_nested_key []
        (String.mk (List.intercalate ['.'] [['a'], ['b'], ['c'], ['d']])) "x")
       = [['a'], ['b'], ['c'], ['d']].length - 1 ∧
     countLeavesM (insert_nested_key []
        (String.mk (List.intercalate ['.'] [['a'], ['b'], ['c'], ['d']])) "x") = 1) :=
  ⟨by decide, by decide,
   C6_dotted_path_depth [['a'], ['b'], ['c'], ['d']] "x" (by decide) (by decide)⟩

/-! Characterizing the classifier. -/

theorem splitAtEq_eq_none (l : List Char) (h : '=' ∉ l) : splitAtEq l = none := by
  induction l with
  | nil => rfl
  | cons c rest ih =>
    have hc : c ≠ '=' := fun hh => h (hh ▸ List.mem_cons_self c rest)
    simp only [splitAtEq, if_neg hc, ih fun hm => h (List.mem_cons_of_mem c hm)]

theorem splitAtEq_eq_some (l : List Char) (h : '=' ∈ l) :
    splitAtEq l = some (l.takeWhile (fun x => x != '='),
      (l.dropWhile (fun x => x != '=')).tail) := by
  induction l with
  | nil => simp at h
  | cons c rest ih =>
    by_cases hc : c = '='
    · subst hc
      simp [splitAtEq, List.takeWhile_cons, List.dropWhile_cons]
    · have hr : '=' ∈ rest := by
        rcases List.mem_cons.mp h with h1 | h1
        · exact absurd h1.symm hc
        · exact h1
      have hb : (c != '=') = true := by simpa using hc
      simp only [splitAtEq, if_neg hc, ih hr, List.takeWhile_cons, List.dropWhile_cons, hb,
        if_true, cond_true]

theorem eq_mem_trimStart (l : List Char) : '=' ∈ trimStartRust l ↔ '=' ∈ l := by
  induction l with
  | nil => simp [trimStartRust]
  | cons c rest ih =>
    by_cases hc : rustIsWhitespace c
    · have hne : ('=' : Char) ≠ c := by
        intro h
        rw [← h] at hc
        exact absurd hc (by decide)
      simp only [trimStartRust, List.dropWhile_cons, hc, if_true, List.mem_cons]
      rw [show rest.dropWhile rustIsWhitespace = trimStartRust rest from rfl, ih]
      simp [hne]
    · simp [trimStartRust, List.dropWhile_cons, hc]

/-- C3: the line classifier is total and deterministic over single-line
inputs — a whitespace-only line yields `Empty`; a line whose first
non-whitespace character is `'#'` yields `Comment`; otherwise a line
containing `'='` yields `Setting` of the trimmed parts around the first
`'='`; and any other line yields `Empty`.  Being a total Lean function it
returns no error on any input. -/
theorem C3_classifier_total (l : List Char) :
    (trimStartRust l = [] → parse_line_content l = ParsedLine.Empty) ∧
    (∀ rest, trimStartRust l = '#' :: rest →
      parse_line_content l = ParsedLine.Comment (String.mk (trimRust rest))) ∧
    (trimStartRust l ≠ [] → (trimStartRust l).head? ≠ some '#' → '=' ∈ l →
      parse_line_content l = ParsedLine.Setting
        (String.mk (trimRust ((trimStartRust l).takeWhile (fun x => x != '='))))
        (String.mk (trimRust (((trimStartRust l).dropWhile (fun x => x != '=')).tail)))) ∧
    (trimStartRust l ≠ [] → (trimStartRust l).head? ≠ some '#' → '=' ∉ l →
      parse_line_content l = ParsedLine.Empty) := by
  refine ⟨?_, ?_, ?_, ?_⟩
  · intro h
    simp [parse_line_content, h]
  · intro rest h
    simp [parse_line_content, h]
  · intro hne hhash hmem
    obtain ⟨c, ts, ht⟩ := List.exists_cons_of_ne_nil hne
    have hc : c ≠ '#' := by
      intro hh
      rw [ht, hh] at hhash
      exact hhash rfl
    have hmem' : '=' ∈ trimStartRust l := (eq_mem_trimStart l).mpr hmem
    rw [ht] at hmem'
    simp only [parse_line_content, ht, if_neg hc, splitAtEq_eq_some _ hmem']
  · intro hne hhash hmem
    obtain ⟨c, ts, ht⟩ := List.exists_cons_of_ne_nil hne
    have hc : c ≠ '#' := by
      intro hh
      rw [ht, hh] at hhash
      exact hhash rfl
    have hmem' : '=' ∉ trimStartRust l := fun hh => hmem ((eq_mem_trimStart l).mp hh)
    rw [ht] at hmem'
    simp only [parse_line_content, ht, if_neg hc, splitAtEq_eq_none _ hmem']

/-- Witness for C3: one concrete line per branch of the classifier. -/
theorem C3_classifier_total_witness :
    (trimStartRust "  ".data = [] ∧ parse_line_content "  ".data = ParsedLine.Empty) ∧
    (trimStartRust " # c".data = '#' :: " c".data ∧
      parse_line_content " # c".data = ParsedLine.Comment (String.mk (trimRust " c".data))) ∧
    (parse_line_content " a.b = hi ".data = ParsedLine.Setting
        (String.mk (trimRust ((trimStartRust " a.b = hi ".data).takeWhile (fun x => x != '='))))
        (String.mk (trimRust (((trimStartRust " a.b = hi ".data).dropWhile (fun x => x != '=')).tail)))) ∧
    (parse_line_content "junk".data = ParsedLine.Empty) :=
  ⟨⟨rfl, (C3_classifier_total "  ".data).1 rfl⟩,
   ⟨rfl, (C3_classifier_total " # c".data).2.1 " c".data rfl⟩,
   (C3_classifier_total " a.b = hi ".data).2.2.1 (by decide) (by decide) (by decide),
   (C3_classifier_total "junk".data).2.2.2 (by decide) (by decide) (by decide)⟩

/-! Single-line inputs through the assembler. -/

/-- Lines free of carriage returns and line feeds. -/
def noCRLF (l : List Char) : Bool :=
  l.all fun c => !(c = '\r' || c = '\n')

theorem noCRLF_no_stop (l : List Char) (h : noCRLF l = true) :
    ∀ c ∈ l, (decide (c = '\r') || decide (c = '\n')) = false := by
  intro c hc
  have := (List.all_eq_true.mp h) c hc
  simpa using this

theorem parse_line_noCRLF (l : List Char) (h : noCRLF l = true) :
    parse_line l = ([], parse_line_content l) := by
  unfold parse_line
  rw [take_till_no_stop _ _ (noCRLF_no_stop l h)]

theorem parse_config_lines_single (l : List Char) (h : noCRLF l = true) :
    parse_config_lines l = .ok ([parse_line_content l].filterMap toSetting, []) := by
  simp only [parse_config_lines, parse_line_noCRLF l h]
  rfl

/-- C10: a line whose first non-whitespace character is `'='` classifies as a
`Setting` with the empty-string key, and assembling that single line yields a
root table binding the empty key to the trimmed value — the empty key is not
rejected at any stage. -/
theorem C10_empty_key (l ts : List Char) (ht : trimStartRust l = '=' :: ts) :
    parse_line_content l = ParsedLine.Setting "" (String.mk (trimRust ts)) ∧
    (noCRLF l = true → parse_sysctl_conf_to_nested l =
      .ok [("", ConfigValue.Str (String.mk (trimRust ts)))]) := by
  have hcl : parse_line_content l = ParsedLine.Setting "" (String.mk (trimRust ts)) := by
    simp only [parse_line_content, ht, if_neg (by decide : ('=' : Char) ≠ '#')]
    simp [splitAtEq, trimRust]
  refine ⟨hcl, fun hcr => ?_⟩
  simp only [parse_sysctl_conf_to_nested, parse_config_lines_single l hcr, hcl]
  rfl

/-- Witness for C10 at the concrete line `" = v"`. -/
theorem C10_empty_key_witness :
    trimStartRust " = v".data = '=' :: [' ', 'v'] ∧
    noCRLF " = v".data = true ∧
    parse_line_content " = v".data = ParsedLine.Setting "" (String.mk (trimRust [' ', 'v'])) ∧
    parse_sysctl_conf_to_nested " = v".data =
      .ok [("", ConfigValue.Str (String.mk (trimRust [' ', 'v'])))] :=
  ⟨rfl, rfl, (C10_empty_key " = v".data [' ', 'v'] rfl).1,
   (C10_empty_key " = v".data [' ', 'v'] rfl).2 rfl⟩

/-! Multi-line inputs: the assembled settings are the per-line
classifications of the `'\n'`-joined lines. -/

theorem intercalate_nl_cons_cons (l r0 : List Char) (rs : List (List Char)) :
    List.intercalate ['\n'] (l :: r0 :: rs) =
      l ++ '\n' :: List.intercalate ['\n'] (r0 :: rs) := by
  simp [List.intercalate, List.intersperse_cons_cons]

theorem parse_line_at_boundary (l rest : List Char) (h : noCRLF l = true) :
    parse_line (l ++ '\n' :: rest) = ('\n' :: rest, parse_line_content l) := by
  unfold parse_line
  rw [take_till_append _ _ _ (noCRLF_no_stop l h),
    take_till_stop _ '\n' rest (by decide)]
  simp only [List.append_nil]

theorem parseConfigLoop_nl (ls : List (List Char)) :
    (∀ l ∈ ls, noCRLF l = true) → ls ≠ [] →
    ∀ n, ('\n' :: List.intercalate ['\n'] ls).length < n →
    parseConfigLoop n ('\n' :: List.intercalate ['\n'] ls) =
      .ok (ls.map parse_line_content, []) := by
  induction ls with
  | nil => intro _ hne; exact absurd rfl hne
  | cons l rest ih =>
    intro hls _ n hn
    match n, hn with
    | n + 1, hn =>
      have hl : noCRLF l = true := hls l (List.mem_cons_self l rest)
      match rest with
      | [] =>
        have hone : List.intercalate ['\n'] [l] = l := by
          simp [List.intercalate]
        rw [hone] at hn ⊢
        simp only [parseConfigLoop, line_ending]
        rw [if_neg (by simp)]
        rw [parse_line_noCRLF l hl]
        have hn' : 0 < n := by simp at hn; omega
        match n, hn' with
        | m + 1, _ =>
          simp [parseConfigLoop, line_ending]
      | r0 :: rs =>
        rw [intercalate_nl_cons_cons l r0 rs] at hn ⊢
        simp only [parseConfigLoop, line_ending]
        rw [if_neg (by simp)]
        rw [parse_line_at_boundary l _ hl]
        have hrec := ih (fun x hx => hls x (List.mem_cons_of_mem l hx)) (by simp) n
          (by simp at hn ⊢; omega)
        rw [hrec]
        rfl

theorem parse_config_lines_intercalate (ls : List (List Char))
    (hls : ∀ l ∈ ls, noCRLF l = true) :
    parse_config_lines (List.intercalate ['\n'] ls) =
      .ok ((ls.map parse_line_content).filterMap toSetting, []) := by
  match ls with
  | [] => rfl
  | [l] =>
    have hone : List.intercalate ['\n'] [l] = l := by simp [List.intercalate]
    rw [hone]
    exact parse_config_lines_single l (hls l (List.mem_cons_self l []))
  | l :: r0 :: rs =>
    have hl : noCRLF l = true := hls l (List.mem_cons_self l _)
    rw [intercalate_nl_cons_cons l r0 rs]
    simp only [parse_config_lines, parse_line_at_boundary l _ hl]
    rw [parseConfigLoop_nl (r0 :: rs) (fun x hx => hls x (List.mem_cons_of_mem l hx))
      (by simp) _ (Nat.lt_succ_self _)]
    rfl

/-- Blank (whitespace-only) lines. -/
def isBlankLine (l : List Char) : Bool :=
  (trimStartRust l).isEmpty

/-- Comment-only lines: first non-whitespace character is `'#'`. -/
def isCommentLine (l : List Char) : Bool :=
  match trimStartRust l with
  | '#' :: _ => true
  | _ => false

theorem toSetting_of_dropped (l : List Char)
    (h : (isBlankLine l || isCommentLine l) = true) :
    toSetting (parse_line_content l) = none := by
  rcases Bool.or_eq_true_iff.mp h with hb | hc
  · have : trimStartRust l = [] := List.isEmpty_iff.mp hb
    simp [parse_line_content, this, toSetting]
  · unfold isCommentLine at hc
    split at hc
    · next rest heq => simp [parse_line_content, heq, toSetting]
    · exact absurd hc (by simp)

theorem filterMap_settings_filter (ls : List (List Char)) :
    ((ls.filter fun l => !(isBlankLine l || isCommentLine l)).map
        parse_line_content).filterMap toSetting =
      (ls.map parse_line_content).filterMap toSetting := by
  induction ls with
  | nil => rfl
  | cons l rest ih =>
    by_cases hk : (isBlankLine l || isCommentLine l) = true
    · rw [List.filter_cons_of_neg (by simp [hk])]
      simp only [List.map_cons, List.filterMap_cons, toSetting_of_dropped l hk]
      exact ih
    · rw [List.filter_cons_of_pos (by simp [hk])]
      simp only [List.map_cons, List.filterMap_cons]
      rw [ih]

/-- C7: comment-only and blank lines are transparent to assembly — deleting
them from the line sequence, while leaving the other lines unaltered,
produces an identical assembled document. -/
theorem C7_comment_blank_transparency (ls : List (List Char))
    (hls : ∀ l ∈ ls, noCRLF l = true) :
    parse_sysctl_conf_to_nested (List.intercalate ['\n'] ls) =
      parse_sysctl_conf_to_nested (List.intercalate ['\n']
        (ls.filter fun l => !(isBlankLine l || isCommentLine l))) := by
  have hls' : ∀ l ∈ ls.filter fun l => !(isBlankLine l || isCommentLine l),
      noCRLF l = true := fun l hl => hls l (List.mem_of_mem_filter hl)
  simp only [parse_sysctl_conf_to_nested, parse_config_lines_intercalate ls hls,
    parse_config_lines_intercalate _ hls', filterMap_settings_filter ls]

/-- Witness for C7 on a concrete mixed input. -/
theorem C7_comment_blank_transparency_witness :
    (∀ l ∈ [" # note".data, "a = 1".data, "  ".data, "b.c = 2".data],
      noCRLF l = true) ∧
    parse_sysctl_conf_to_nested (List.intercalate ['\n']
        [" # note".data, "a = 1".data, "  ".data, "b.c = 2".data]) =
      parse_sysctl_conf_to_nested (List.intercalate ['\n']
        ([" # note".data, "a = 1".data, "  ".data, "b.c = 2".data].filter
          fun l => !(isBlankLine l || isCommentLine l))) :=
  ⟨by decide,
   C7_comment_blank_transparency
     [" # note".data, "a = 1".data, "  ".data, "b.c = 2".data] (by decide)⟩

/-! Dotted paths: self-lookup after insertion, and preservation under
insertions along unrelated paths. -/

/-- Segment path of a dotted key, as `insert_nested_key` computes it. -/
def segsOf (k : String) : List String :=
  (split_dot k.data).map String.mk

/-- Paths neither of which is a prefix of the other. -/
def pathUnrelated (p q : List String) : Bool :=
  !(p.isPrefixOf q || q.isPrefixOf p)

/-- The fold in `parse_sysctl_conf_to_nested`: insert every setting into an
initially empty root, in input order. -/
def assembleSettings (kvs : List (String × String)) : List (String × ConfigValue) :=
  kvs.foldl (fun root kv => insert_nested_key root kv.1 kv.2) []

theorem segsOf_ne_nil (k : String) : segsOf k ≠ [] := by
  intro h
  exact split_dot_ne_nil k.data (List.map_eq_nil_iff.mp h)

theorem getPath_insert_self (segs : List String) (v : String)
    (m : List (String × ConfigValue)) (hne : segs ≠ []) :
    getPath (insert_recursive m segs v) segs = some (ConfigValue.Str v) := by
  induction segs generalizing m with
  | nil => exact absurd rfl hne
  | cons s rest ih =>
    match rest with
    | [] =>
      simp only [insert_recursive, getPath]
      exact mapGet_mapInsert_self s (ConfigValue.Str v) m
    | r0 :: rs =>
      simp only [insert_recursive]
      match hget : mapGet s m with
      | some (ConfigValue.Table t) =>
        simp only [getPath, mapGet_mapInsert_self s _ m]
        exact ih t (by simp)
      | some (ConfigValue.Str _) =>
        simp only [getPath, mapGet_mapInsert_self s _ m]
        exact ih [] (by simp)
      | none =>
        simp only [getPath, mapGet_mapInsert_self s _ m]
        exact ih [] (by simp)

theorem getPath_nestedSingleton_unrelated (p q : List String) (v : String)
    (hp : p ≠ []) (hq : q ≠ []) (hun : pathUnrelated p q = true) :
    getPath (nestedSingleton q v) p = none := by
  induction p generalizing q with
  | nil => exact absurd rfl hp
  | cons hp0 pt ih =>
    obtain ⟨hq0, qt, rfl⟩ := List.exists_cons_of_ne_nil hq
    by_cases hh : hp0 = hq0
    · subst hh
      have hptne : pt ≠ [] := by
        rintro rfl
        simp [pathUnrelated, List.isPrefixOf] at hun
      have hqtne : qt ≠ [] := by
        rintro rfl
        simp [pathUnrelated, List.isPrefixOf] at hun
      obtain ⟨q1, qs, rfl⟩ := List.exists_cons_of_ne_nil hqtne
      obtain ⟨p1, ps, rfl⟩ := List.exists_cons_of_ne_nil hptne
      simp only [nestedSingleton, getPath, mapGet, if_pos rfl]
      refine ih _ (by simp) (by simp) ?_
      simpa [pathUnrelated, List.isPrefixOf] using hun
    · match qt with
      | [] =>
        match pt with
        | [] =>
          simp only [nestedSingleton, getPath, mapGet]
          rw [if_neg fun hh2 => hh hh2.symm]
        | p1 :: ps =>
          simp only [nestedSingleton, getPath, mapGet]
          rw [if_neg fun hh2 => hh hh2.symm]
      | q1 :: qs =>
        match pt with
        | [] =>
          simp only [nestedSingleton, getPath, mapGet]
          rw [if_neg fun hh2 => hh hh2.symm]
        | p1 :: ps =>
          simp only [nestedSingleton, getPath, mapGet]
          rw [if_neg fun hh2 => hh hh2.symm]

theorem cons_pathUnrelated {h : String} {pt qt : List String}
    (hun : pathUnrelated (h :: pt) (h :: qt) = true) :
    pathUnrelated pt qt = true := by
  simpa [pathUnrelated, List.isPrefixOf] using hun

theorem getPath_insert_unrelated (q p : List String) (v : String)
    (m : List (String × ConfigValue)) (hp : p ≠ []) (hq : q ≠ [])
    (hun : pathUnrelated p q = true) :
    getPath (insert_recursive m q v) p = getPath m p := by
  induction q generalizing p m with
  | nil => exact absurd rfl hq
  | cons q0 qt ih =>
    obtain ⟨p0, pt, rfl⟩ := List.exists_cons_of_ne_nil hp
    by_cases hh : p0 = q0
    · subst hh
      have hptne : pt ≠ [] := by
        rintro rfl
        simp [pathUnrelated, List.isPrefixOf] at hun
      have hqtne : qt ≠ [] := by
        rintro rfl
        simp [pathUnrelated, List.isPrefixOf] at hun
      obtain ⟨q1, qs, rfl⟩ := List.exists_cons_of_ne_nil hqtne
      obtain ⟨p1, ps, rfl⟩ := List.exists_cons_of_ne_nil hptne
      have hun' : pathUnrelated (p1 :: ps) (q1 :: qs) = true := cons_pathUnrelated hun
      simp only [insert_recursive]
      match hget : mapGet p0 m with
      | some (ConfigValue.Table t) =>
        simp only [getPath, mapGet_mapInsert_self p0 _ m, hget]
        exact ih _ _ (by simp) (by simp) hun'
      | some (ConfigValue.Str s) =>
        simp only [getPath, mapGet_mapInsert_self p0 _ m, hget]
        rw [insert_recursive_empty _ v (by simp),
          getPath_nestedSingleton_unrelated _ _ v (by simp) (by simp) hun']
      | none =>
        simp only [getPath, mapGet_mapInsert_self p0 _ m, hget]
        rw [insert_recursive_empty _ v (by simp),
          getPath_nestedSingleton_unrelated _ _ v (by simp) (by simp) hun']
    · have hne : p0 ≠ q0 := hh
      match qt with
      | [] =>
        simp only [insert_recursive]
        match pt with
        | [] =>
          simp only [getPath]
          exact mapGet_mapInsert_ne p0 q0 hne _ m
        | p1 :: ps =>
          simp only [getPath]
          rw [mapGet_mapInsert_ne p0 q0 hne _ m]
      | q1 :: qs =>
        simp only [insert_recursive]
        match hget : mapGet q0 m with
        | some (ConfigValue.Table t) =>
          match pt with
          | [] =>
            simp only [getPath]
            exact mapGet_mapInsert_ne p0 q0 hne _ m
          | p1 :: ps =>
            simp only [getPath]
            rw [mapGet_mapInsert_ne p0 q0 hne _ m]
        | some (ConfigValue.Str s) =>
          match pt with
          | [] =>
            simp only [getPath]
            exact mapGet_mapInsert_ne p0 q0 hne _ m
          | p1 :: ps =>
            simp only [getPath]
            rw [mapGet_mapInsert_ne p0 q0 hne _ m]
        | none =>
          match pt with
          | [] =>
            simp only [getPath]
            exact mapGet_mapInsert_ne p0 q0 hne _ m
          | p1 :: ps =>
            simp only [getPath]
            rw [mapGet_mapInsert_ne p0 q0 hne _ m]

theorem getPath_fold_unrelated (kvs : List (String × String))
    (p : List String) (m : List (String × ConfigValue)) (hp : p ≠ [])
    (hun : ∀ kv ∈ kvs, pathUnrelated p (segsOf kv.1) = true) :
    getPath (kvs.foldl (fun root kv => insert_nested_key root kv.1 kv.2) m) p =
      getPath m p := by
  induction kvs generalizing m with
  | nil => rfl
  | cons kv rest ih =>
    rw [List.foldl_cons, ih _ fun x hx => hun x (List.mem_cons_of_mem kv hx)]
    exact getPath_insert_unrelated (segsOf kv.1) p kv.2 m hp (segsOf_ne_nil kv.1)
      (hun kv (List.mem_cons_self kv rest))

theorem trimRust_cons_ws (c : Char) (hc : rustIsWhitespace c = true)
    (x : List Char) : trimRust (c :: x) = trimRust x := by
  simp [trimRust, List.dropWhile_cons, hc]

theorem noCRLF_append (a b : List Char) :
    noCRLF (a ++ b) = (noCRLF a && noCRLF b) :=
  List.all_append

/-- C5: for two settings with the same full dotted key path, the later one in
input order determines the final value, regardless of intervening settings
on unrelated paths; in particular `a = x` followed by `a.b = y` leaves `a` a
table containing `{b: y}` (destroying the leaf), and the reverse order
leaves `a` the leaf `x` (destroying the table), with no error either way. -/
theorem C5_later_wins :
    (∀ (pre mid post : List (String × String)) (k v1 v2 : String),
      (∀ kv ∈ mid ++ post, pathUnrelated (segsOf k) (segsOf kv.1) = true) →
      getPath (assembleSettings (pre ++ (k, v1) :: mid ++ (k, v2) :: post))
        (segsOf k) = some (ConfigValue.Str v2)) ∧
    (∀ x y : List Char, noCRLF x = true → noCRLF y = true →
      trimRust x = x → trimRust y = y →
      parse_sysctl_conf_to_nested ("a = ".data ++ x ++ '\n' :: ("a.b = ".data ++ y)) =
        .ok [("a", ConfigValue.Table [("b", ConfigValue.Str (String.mk y))])]) ∧
    (∀ x y : List Char, noCRLF x = true → noCRLF y = true →
      trimRust x = x → trimRust y = y →
      parse_sysctl_conf_to_nested ("a.b = ".data ++ y ++ '\n' :: ("a = ".data ++ x)) =
        .ok [("a", ConfigValue.Str (String.mk x))]) := by
  refine ⟨?_, ?_, ?_⟩
  · intro pre mid post k v1 v2 hun
    unfold assembleSettings
    rw [List.foldl_append, List.foldl_cons, List.foldl_append, List.foldl_cons]
    rw [getPath_fold_unrelated post (segsOf k) _ (segsOf_ne_nil k)
      fun kv hkv => hun kv (List.mem_append_right mid hkv)]
    exact getPath_insert_self (segsOf k) v2 _ (segsOf_ne_nil k)
  · intro x y hcx hcy hx hy
    have hl1 : noCRLF ("a = ".data ++ x) = true := by
      rw [noCRLF_append, hcx]
      rfl
    have hl2 : noCRLF ("a.b = ".data ++ y) = true := by
      rw [noCRLF_append, hcy]
      rfl
    have hcat : List.intercalate ['\n'] ["a = ".data ++ x, "a.b = ".data ++ y] =
        ("a = ".data ++ x) ++ '\n' :: ("a.b = ".data ++ y) := by
      rw [intercalate_nl_cons_cons]
      simp [List.intercalate]
    have hmain := parse_config_lines_intercalate ["a = ".data ++ x, "a.b = ".data ++ y]
      (by
        intro l hl
        rcases List.mem_cons.mp hl with h1 | h1
        · rw [h1]; exact hl1
        · rcases List.mem_cons.mp h1 with h2 | h2
          · rw [h2]; exact hl2
          · simp at h2)
    rw [hcat] at hmain
    have h1 : parse_line_content ("a = ".data ++ x) =
        ParsedLine.Setting "a" (String.mk x) := by
      show ParsedLine.Setting (String.mk (trimRust ['a'])) (String.mk (trimRust (' ' :: x))) = _
      rw [trimRust_cons_ws ' ' rfl x, hx]
      rfl
    have h2 : parse_line_content ("a.b = ".data ++ y) =
        ParsedLine.Setting "a.b" (String.mk y) := by
      show ParsedLine.Setting (String.mk (trimRust ['a', '.', 'b'])) (String.mk (trimRust (' ' :: y))) = _
      rw [trimRust_cons_ws ' ' rfl y, hy]
      rfl
    unfold parse_sysctl_conf_to_nested
    rw [hmain]
    simp only [List.map_cons, List.map_nil, h1, h2]
    rfl
  · intro x y hcx hcy hx hy
    have hl1 : noCRLF ("a.b = ".data ++ y) = true := by
      rw [noCRLF_append, hcy]
      rfl
    have hl2 : noCRLF ("a = ".data ++ x) = true := by
      rw [noCRLF_append, hcx]
      rfl
    have hcat : List.intercalate ['\n'] ["a.b = ".data ++ y, "a = ".data ++ x] =
        ("a.b = ".data ++ y) ++ '\n' :: ("a = ".data ++ x) := by
      rw [intercalate_nl_cons_cons]
      simp [List.intercalate]
    have hmain := parse_config_lines_intercalate ["a.b = ".data ++ y, "a = ".data ++ x]
      (by
        intro l hl
        rcases List.mem_cons.mp hl with h1 | h1
        · rw [h1]; exact hl1
        · rcases List.mem_cons.mp h1 with h2 | h2
          · rw [h2]; exact hl2
          · simp at h2)
    rw [hcat] at hmain
    have h1 : parse_line_content ("a.b = ".data ++ y) =
        ParsedLine.Setting "a.b" (String.mk y) := by
      show ParsedLine.Setting (String.mk (trimRust ['a', '.', 'b'])) (String.mk (trimRust (' ' :: y))) = _
      rw [trimRust_cons_ws ' ' rfl y, hy]
      rfl
    have h2 : parse_line_content ("a = ".data ++ x) =
        ParsedLine.Setting "a" (String.mk x) := by
      show ParsedLine.Setting (String.mk (trimRust ['a'])) (String.mk (trimRust (' ' :: x))) = _
      rw [trimRust_cons_ws ' ' rfl x, hx]
      rfl
    unfold parse_sysctl_conf_to_nested
    rw [hmain]
    simp only [List.map_cons, List.map_nil, h1, h2]
    rfl

/-- Witness for C5: concrete duplicate-key inputs with an unrelated
intervening setting, plus the two concrete leaf/table destruction inputs. -/
theorem C5_later_wins_witness :
    (∀ kv ∈ [("z", "2")] ++ [("w", "3")],
      pathUnrelated (segsOf "a.b") (segsOf kv.1) = true) ∧
    getPath (assembleSettings
        ([("u", "1")] ++ ("a.b", "x") :: [("z", "2")] ++ ("a.b", "y") :: [("w", "3")]))
      (segsOf "a.b") = some (ConfigValue.Str "y") ∧
    (noCRLF ['x'] = true ∧ trimRust ['x'] = ['x'] ∧
     noCRLF ['y'] = true ∧ trimRust ['y'] = ['y']) ∧
    parse_sysctl_conf_to_nested ("a = ".data ++ ['x'] ++ '\n' :: ("a.b = ".data ++ ['y'])) =
      .ok [("a", ConfigValue.Table [("b", ConfigValue.Str (String.mk ['y']))])] ∧
    parse_sysctl_conf_to_nested ("a.b = ".data ++ ['y'] ++ '\n' :: ("a = ".data ++ ['x'])) =
      .ok [("a", ConfigValue.Str (String.mk ['x']))] :=
  ⟨by decide,
   C5_later_wins.1 [("u", "1")] [("z", "2")] [("w", "3")] "a.b" "x" "y" (by decide),
   ⟨rfl, rfl, rfl, rfl⟩,
   C5_later_wins.2.1 ['x'] ['y'] rfl rfl rfl rfl,
   C5_later_wins.2.2 ['x'] ['y'] rfl rfl rfl rfl⟩

/-! Inputs containing a bare carriage return. -/

/-- Text in which every `'\r'` is immediately followed by `'\n'`. -/
def noBareCR : List Char → Bool
  | [] => true
  | c :: rest =>
    if c = '\r' then
      match rest with
      | [] => false
      | c2 :: rest2 => if c2 = '\n' then noBareCR rest2 else false
    else noBareCR rest

theorem take_till_eq_append (p : Char → Bool) (i : List Char) :
    (take_till p i).1 ++ (take_till p i).2 = i := by
  induction i with
  | nil => rfl
  | cons c rest ih =>
    simp only [take_till]
    split
    · rfl
    · simpa using ih

theorem take_till_taken_no_stop (p : Char → Bool) (i : List Char) :
    ∀ c ∈ (take_till p i).1, p c = false := by
  induction i with
  | nil => simp [take_till]
  | cons c rest ih =>
    simp only [take_till]
    split
    · simp
    · next hpc =>
      intro d hd
      rcases List.mem_cons.mp hd with h1 | h1
      · rw [h1]
        exact Bool.not_eq_true _ ▸ hpc
      · exact ih d h1

theorem take_till_rem_cases (p : Char → Bool) (i : List Char) :
    (take_till p i).2 = [] ∨
      ∃ c r, (take_till p i).2 = c :: r ∧ p c = true := by
  induction i with
  | nil => left; rfl
  | cons c rest ih =>
    simp only [take_till]
    split
    · next hpc => right; exact ⟨c, rest, rfl, hpc⟩
    · exact ih

theorem take_till_append_stuck (p : Char → Bool) (P t : List Char)
    (ht : take_till p t = ([], t)) :
    take_till p (P ++ t) = ((take_till p P).1, (take_till p P).2 ++ t) := by
  rcases take_till_rem_cases p P with hrem | ⟨c, r, hrem, hpc⟩
  · have hP : P = (take_till p P).1 := by
      conv_lhs => rw [← take_till_eq_append p P]
      rw [hrem, List.append_nil]
    rw [take_till_append p _ t (fun d hd => take_till_taken_no_stop p P d (hP ▸ hd)), ht]
    rw [hrem]
    simp [← hP]
  · have hP : (take_till p P).1 ++ c :: r = P := by
      conv_rhs => rw [← take_till_eq_append p P]
      rw [hrem]
    have h1 : take_till p (P ++ t) = ((take_till p P).1, c :: (r ++ t)) := by
      conv_lhs => rw [← hP]
      rw [List.append_assoc, take_till_append p _ _ (take_till_taken_no_stop p P),
        List.cons_append, take_till_stop p c _ hpc]
      simp
    rw [h1, hrem]
    simp

theorem parse_line_append_stuck (P t : List Char)
    (ht : take_till (fun c => c = '\r' || c = '\n') t = ([], t)) :
    parse_line (P ++ t) = ((parse_line P).1 ++ t, (parse_line P).2) := by
  unfold parse_line
  rw [take_till_append_stuck _ P t ht]

theorem line_ending_bare_cr (suffix : List Char) (h : suffix.head? ≠ some '\n') :
    line_ending ('\r' :: suffix) = none := by
  match suffix with
  | [] => rfl
  | c :: s =>
    have hc : c ≠ '\n' := by
      intro hh
      exact h (by rw [hh]; rfl)
    rw [line_ending.eq_def]
    split
    · next heq => simp at heq
    · next heq =>
      rw [List.cons.injEq, List.cons.injEq] at heq
      exact absurd heq.2.1 hc
    · rfl

theorem take_till_stuck_bare_cr (suffix : List Char) :
    take_till (fun c => c = '\r' || c = '\n') ('\r' :: suffix) =
      ([], '\r' :: suffix) :=
  take_till_stop _ '\r' suffix (by decide)

theorem noBareCR_cons_not_cr (c : Char) (rest : List Char) (hc : c ≠ '\r')
    (h : noBareCR (c :: rest) = true) : noBareCR rest = true := by
  unfold noBareCR at h
  rw [if_neg hc] at h
  exact h

theorem noBareCR_append_right (a b : List Char) (ha : ∀ c ∈ a, c ≠ '\r')
    (h : noBareCR (a ++ b) = true) : noBareCR b = true := by
  induction a with
  | nil => exact h
  | cons c rest ih =>
    rw [List.cons_append] at h
    exact ih (fun d hd => ha d (List.mem_cons_of_mem c hd))
      (noBareCR_cons_not_cr c _ (ha c (List.mem_cons_self c rest)) h)

/-- Remainder states of the line loop: empty, or starting at a separator
character. -/
def startsSep (i : List Char) : Prop :=
  i = [] ∨ (∃ r, i = '\n' :: r) ∨ (∃ r, i = '\r' :: r)

theorem parse_line_rem_noBareCR (i : List Char) (h : noBareCR i = true) :
    noBareCR (parse_line i).1 = true := by
  have hsplit := take_till_eq_append (fun c => c = '\r' || c = '\n') i
  have htaken := take_till_taken_no_stop (fun c => c = '\r' || c = '\n') i
  refine noBareCR_append_right _ _ (fun c hc => ?_) (hsplit ▸ h)
  have := htaken c hc
  simp at this
  exact fun hh => absurd hh this.1

theorem parse_line_rem_startsSep (i : List Char) : startsSep (parse_line i).1 := by
  rcases take_till_rem_cases (fun c => c = '\r' || c = '\n') i with h | ⟨c, r, h, hpc⟩
  · left; exact h
  · simp only [Bool.or_eq_true, decide_eq_true_eq] at hpc
    rcases hpc with hc | hc
    · right; right; exact ⟨r, hc ▸ h⟩
    · right; left; exact ⟨r, hc ▸ h⟩

theorem parseConfigLoop_trunc : ∀ (n : Nat) (i : List Char), i.length < n →
    noBareCR i = true → startsSep i →
    ∀ (t : List Char) (m : Nat),
      take_till (fun c => c = '\r' || c = '\n') t = ([], t) →
      line_ending t = none → (i ++ t).length < m →
      ∃ pls, parseConfigLoop n i = .ok (pls, []) ∧
        parseConfigLoop m (i ++ t) = .ok (pls, t) := by
  intro n
  induction n with
  | zero => intro i h; omega
  | succ n ih =>
    intro i hn hbc hss t m htt hlt hm
    match m, hm with
    | m + 1, hm =>
      rcases hss with hi | ⟨r, hi⟩ | ⟨r, hi⟩
      · subst hi
        refine ⟨[], rfl, ?_⟩
        simp only [List.nil_append, parseConfigLoop, hlt]
      · subst hi
        have hbr : noBareCR r = true := noBareCR_cons_not_cr '\n' r (by decide) hbc
        have hrest := parse_line_rem_length r
        obtain ⟨pls, h1, h2⟩ := ih ((parse_line r).1)
          (by simp at hn; omega)
          (parse_line_rem_noBareCR r hbr) (parse_line_rem_startsSep r) t m htt hlt
          (by simp at hm ⊢; omega)
        refine ⟨(parse_line r).2 :: pls, ?_, ?_⟩
        · simp only [parseConfigLoop, show line_ending ('\n' :: r) = some r from rfl]
          rw [if_neg (by simp)]
          rw [h1]
        · rw [show ('\n' :: r) ++ t = '\n' :: (r ++ t) from rfl]
          simp only [parseConfigLoop,
            show line_ending ('\n' :: (r ++ t)) = some (r ++ t) from rfl]
          rw [if_neg (by simp)]
          rw [parse_line_append_stuck r t htt]
          simp only []
          rw [h2]
      · subst hi
        match r with
        | [] => exact absurd hbc (by decide)
        | c2 :: r2 =>
          by_cases hc2 : c2 = '\n'
          · subst hc2
            have hbr : noBareCR r2 = true := by simpa [noBareCR] using hbc
            have hrest := parse_line_rem_length r2
            obtain ⟨pls, h1, h2⟩ := ih ((parse_line r2).1)
              (by simp at hn; omega)
              (parse_line_rem_noBareCR r2 hbr) (parse_line_rem_startsSep r2) t m htt hlt
              (by simp at hm ⊢; omega)
            refine ⟨(parse_line r2).2 :: pls, ?_, ?_⟩
            · simp only [parseConfigLoop,
                show line_ending ('\r' :: '\n' :: r2) = some r2 from rfl]
              rw [if_neg (by simp; omega)]
              rw [h1]
            · rw [show ('\r' :: '\n' :: r2) ++ t = '\r' :: '\n' :: (r2 ++ t) from rfl]
              simp only [parseConfigLoop,
                show line_ending ('\r' :: '\n' :: (r2 ++ t)) = some (r2 ++ t) from rfl]
              rw [if_neg (by simp; omega)]
              rw [parse_line_append_stuck r2 t htt]
              simp only []
              rw [h2]
          · exact absurd hbc (by simp [noBareCR, hc2])

theorem parse_config_lines_bare_cr (P suffix : List Char)
    (hP : noBareCR P = true) (hs : suffix.head? ≠ some '\n') :
    ∃ settings, parse_config_lines P = .ok (settings, []) ∧
      parse_config_lines (P ++ '\r' :: suffix) = .ok (settings, '\r' :: suffix) := by
  have htt := take_till_stuck_bare_cr suffix
  have hlt := line_ending_bare_cr suffix hs
  have hpl := parse_line_append_stuck P ('\r' :: suffix) htt
  obtain ⟨pls, h1, h2⟩ := parseConfigLoop_trunc ((parse_line P).1.length + 1)
    ((parse_line P).1) (Nat.lt_succ_self _) (parse_line_rem_noBareCR P hP)
    (parse_line_rem_startsSep P) ('\r' :: suffix)
    (((parse_line P).1 ++ '\r' :: suffix).length + 1) htt hlt (Nat.lt_succ_self _)
  refine ⟨((parse_line P).2 :: pls).filterMap toSetting, ?_, ?_⟩
  · simp only [parse_config_lines, h1]
    rfl
  · simp only [parse_config_lines, hpl, h2, hlt]

/-- C9: an input containing a bare carriage return (one not followed by a
line feed) still parses to `Ok`, but line splitting stops at the bare
`'\r'`: the assembled document equals that of the prefix before it, and the
unconsumed remainder is discarded without error. -/
theorem C9_bare_cr_truncation (P suffix : List Char)
    (hP : noBareCR P = true) (hs : suffix.head? ≠ some '\n') :
    parse_sysctl_conf_to_nested (P ++ '\r' :: suffix) =
      parse_sysctl_conf_to_nested P ∧
    (parse_sysctl_conf_to_nested (P ++ '\r' :: suffix)).isOk = true := by
  obtain ⟨settings, h1, h2⟩ := parse_config_lines_bare_cr P suffix hP hs
  simp only [parse_sysctl_conf_to_nested, h1, h2]
  exact ⟨trivial, rfl⟩

/-- Witness for C9: settings after the bare `'\r'` are dropped. -/
theorem C9_bare_cr_truncation_witness :
    noBareCR "a=1\nb=2".data = true ∧
    ("c=3\nd=4".data).head? ≠ some '\n' ∧
    parse_sysctl_conf_to_nested ("a=1\nb=2".data ++ '\r' :: "c=3\nd=4".data) =
      parse_sysctl_conf_to_nested "a=1\nb=2".data ∧
    (parse_sysctl_conf_to_nested ("a=1\nb=2".data ++ '\r' :: "c=3\nd=4".data)).isOk
      = true :=
  ⟨rfl, by decide,
   (C9_bare_cr_truncation "a=1\nb=2".data "c=3\nd=4".data rfl (by decide)).1,
   (C9_bare_cr_truncation "a=1\nb=2".data "c=3\nd=4".data rfl (by decide)).2⟩

/-! The schema parser: `separated_list0` never turns a failing line into an
error — it stops early with the already-parsed prefix. -/

theorem dropWhile_length_le (p : Char → Bool) (l : List Char) :
    (l.dropWhile p).length ≤ l.length :=
  List.Sublist.length_le (List.dropWhile_sublist p)

theorem Schema.take_while1_some {p : Char → Bool} {i taken rest : List Char}
    (h : Schema.take_while1 p i = some (taken, rest)) :
    rest.length < i.length := by
  match i with
  | [] => simp [Schema.take_while1] at h
  | c :: cs =>
    rw [show Schema.take_while1 p (c :: cs) =
      (if p c then some ((c :: cs).takeWhile p, (c :: cs).dropWhile p) else none)
      from rfl] at h
    split at h
    · next hpc =>
      injection h with h
      rw [Prod.mk.injEq] at h
      have hrest : rest = (c :: cs).dropWhile p := h.2.symm
      rw [hrest, List.dropWhile_cons, if_pos hpc]
      exact Nat.lt_succ_of_le (dropWhile_length_le p cs)
    · exact absurd h (by simp)

theorem Schema.space0_length (i : List Char) :
    (Schema.space0 i).length ≤ i.length :=
  dropWhile_length_le _ i

theorem Schema.tagArrow_cases {i r : List Char} (h : Schema.tagArrow i = some r) :
    i = '-' :: '>' :: r := by
  rw [Schema.tagArrow.eq_def] at h
  split at h
  · injection h with h
    rw [h]
  · exact absurd h (by simp)

theorem Schema.parse_field_type_cases {i r : List Char} {ft : Schema.SchemeType}
    (h : Schema.parse_field_type i = some (r, ft)) :
    i = 'b' :: 'o' :: 'o' :: 'l' :: r ∨
      i = 's' :: 't' :: 'r' :: 'i' :: 'n' :: 'g' :: r := by
  rw [Schema.parse_field_type.eq_def] at h
  split at h
  · left
    injection h with h
    rw [Prod.mk.injEq] at h
    rw [h.1]
  · right
    injection h with h
    rw [Prod.mk.injEq] at h
    rw [h.1]
  · exact absurd h (by simp)

theorem Schema.parse_identifier_some {i rest : List Char} {name : String}
    (h : Schema.parse_identifier i = some (rest, name)) :
    rest.length < i.length := by
  unfold Schema.parse_identifier at h
  match hw : Schema.take_while1 Schema.isIdentChar i with
  | none => simp [hw] at h
  | some (taken, r2) =>
    simp only [hw, Option.some.injEq, Prod.mk.injEq] at h
    exact h.1 ▸ Schema.take_while1_some hw

theorem Schema.parse_line_some_length {i rest : List Char} {f : Schema.SchemeField}
    (h : Schema.parse_line i = some (rest, f)) : rest.length < i.length := by
  unfold Schema.parse_line at h
  match hident : Schema.parse_identifier i with
  | none => simp [hident] at h
  | some (i1, name) =>
    simp only [hident] at h
    match harrow : Schema.tagArrow (Schema.space0 i1) with
    | none => simp [harrow] at h
    | some i3 =>
      simp only [harrow] at h
      match hft : Schema.parse_field_type (Schema.space0 i3) with
      | none => simp [hft] at h
      | some (i5, ft) =>
        simp only [hft, Option.some.injEq, Prod.mk.injEq] at h
        have h1 : i1.length < i.length := Schema.parse_identifier_some hident
        have h2 : (Schema.space0 i1).length ≤ i1.length := Schema.space0_length i1
        have h3 : i3.length < (Schema.space0 i1).length := by
          rw [Schema.tagArrow_cases harrow]
          simp
          omega
        have h4 : (Schema.space0 i3).length ≤ i3.length := Schema.space0_length i3
        have h5 : i5.length < (Schema.space0 i3).length := by
          rcases Schema.parse_field_type_cases hft with hcase | hcase <;>
            (rw [hcase]; simp; omega)
        rw [← h.1]
        omega

theorem Schema.parse_scheme_loop_ok : ∀ (n : Nat) (i : List Char),
    i.length < n → ∃ r, Schema.parse_scheme_loop n i = .ok r := by
  intro n
  induction n with
  | zero => intro i h; omega
  | succ n ih =>
    intro i hn
    simp only [Schema.parse_scheme_loop]
    match hle : line_ending i with
    | none => exact ⟨([], i), rfl⟩
    | some i1 =>
      have hlt : i1.length < i.length := line_ending_length hle
      simp only []
      rw [if_neg (by omega)]
      match hpl : Schema.parse_line i1 with
      | none => exact ⟨([], i), rfl⟩
      | some (i2, f) =>
        have h2 : i2.length < i1.length := Schema.parse_line_some_length hpl
        obtain ⟨r, hr⟩ := ih i2 (by omega)
        simp only []
        rw [hr]
        exact ⟨(f :: r.1, r.2), rfl⟩

/-- Counterexample to C1: an input whose only line has an invalid type token
makes `parse_scheme` return `Ok` (an empty prefix, input unconsumed) rather
than an error; with a valid first line it returns `Ok` with a partial field
sequence, stopping before the invalid line. -/
theorem C1_counterexample_partial_ok :
    Schema.parse_scheme "x -> int".data = .ok ([], "x -> int".data) ∧
    Schema.parse_scheme "a -> bool\nx -> int".data =
      .ok ([⟨"a", Schema.SchemeType.Bool⟩], '\n' :: "x -> int".data) :=
  ⟨rfl, rfl⟩

/-- C1 (amended): schema-document parsing never returns an error.  On any
input — in particular one containing an invalid `identifier -> type` line —
`parse_scheme` returns `Ok` with the prefix of fields parsed before the
first failing line, leaving the rest of the input unconsumed. -/
theorem C1_amended_schema_parse_never_fails (input : List Char) :
    ∃ r, Schema.parse_scheme input = .ok r := by
  simp only [Schema.parse_scheme]
  match hpl : Schema.parse_line input with
  | none => exact ⟨([], input), rfl⟩
  | some (i1, f) =>
    obtain ⟨r, hr⟩ := Schema.parse_scheme_loop_ok (i1.length + 1) i1 (Nat.lt_succ_self _)
    simp only []
    rw [hr]
    exact ⟨(f :: r.1, r.2), rfl⟩

/-! The schema validator. -/

/-- Conformance of one declared field against the root table, as the spec
states it: the name is a direct key and the value fits the declared type —
for `Bool` a leaf that is exactly `"true"` or `"false"`, for `String` any
leaf; a table or a missing key never conforms. -/
def Schema.fieldOk (config : List (String × ConfigValue))
    (f : Schema.SchemeField) : Bool :=
  match mapGet f.name config with
  | none => false
  | some (ConfigValue.Table _) => false
  | some (ConfigValue.Str s) =>
    match f.field_type with
    | Schema.SchemeType.Bool => s = "true" || s = "false"
    | Schema.SchemeType.String => true

theorem Schema.validate_cons_ok (g : Schema.SchemeField)
    (l : List Schema.SchemeField) (config : List (String × ConfigValue))
    (hg : Schema.fieldOk config g = true) :
    Schema.validate_config (g :: l) config = Schema.validate_config l config := by
  unfold Schema.fieldOk at hg
  simp only [Schema.validate_config]
  match hget : mapGet g.name config with
  | none => simp [hget] at hg
  | some (ConfigValue.Table t) => simp [hget] at hg
  | some (ConfigValue.Str s) =>
    simp only [hget] at hg ⊢
    match hft : g.field_type with
    | Schema.SchemeType.Bool =>
      simp only [hft] at hg ⊢
      have hcond : ¬(s ≠ "true" ∧ s ≠ "false") := by
        simp only [Bool.or_eq_true, decide_eq_true_eq] at hg
        rcases hg with h | h
        · intro hc; exact hc.1 h
        · intro hc; exact hc.2 h
      rw [if_neg hcond]
    | Schema.SchemeType.String => rfl

theorem Schema.validate_cons_fail (g : Schema.SchemeField)
    (l : List Schema.SchemeField) (config : List (String × ConfigValue))
    (hg : Schema.fieldOk config g = false) :
    Schema.validate_config (g :: l) config = Schema.validate_config [g] config ∧
      Schema.validate_config (g :: l) config ≠ .ok () := by
  unfold Schema.fieldOk at hg
  simp only [Schema.validate_config]
  match hget : mapGet g.name config with
  | none => simp [hget]
  | some (ConfigValue.Table t) =>
    simp only [hget]
    match hft : g.field_type with
    | Schema.SchemeType.Bool => simp
    | Schema.SchemeType.String => simp
  | some (ConfigValue.Str s) =>
    simp only [hget] at hg ⊢
    match hft : g.field_type with
    | Schema.SchemeType.Bool =>
      simp only [hft] at hg ⊢
      have hcond : s ≠ "true" ∧ s ≠ "false" := by
        constructor <;> intro hh <;> subst hh <;> simp at hg
      rw [if_pos hcond, if_pos hcond]
      simp
    | Schema.SchemeType.String => simp [hft] at hg

/-- C4: `validate_config` succeeds exactly when every declared field is a
direct key of the root table whose value conforms to its declared type, and
on failure it short-circuits: the result is the error of the earliest
failing field, with later fields never consulted. -/
theorem C4_validator_first_error :
    (∀ (schema : List Schema.SchemeField) (config : List (String × ConfigValue)),
      Schema.validate_config schema config = .ok () ↔
        ∀ f ∈ schema, Schema.fieldOk config f = true) ∧
    (∀ (pre : List Schema.SchemeField) (f : Schema.SchemeField)
        (rest : List Schema.SchemeField) (config : List (String × ConfigValue)),
      (∀ g ∈ pre, Schema.fieldOk config g = true) →
      Schema.fieldOk config f = false →
      Schema.validate_config (pre ++ f :: rest) config =
        Schema.validate_config [f] config ∧
      Schema.validate_config (pre ++ f :: rest) config ≠ .ok ()) := by
  constructor
  · intro schema config
    induction schema with
    | nil => simp [Schema.validate_config]
    | cons g rest ih =>
      by_cases hg : Schema.fieldOk config g = true
      · rw [Schema.validate_cons_ok g rest config hg, ih]
        simp [hg]
      · have hg' : Schema.fieldOk config g = false := by
          simpa using hg
        constructor
        · intro hok
          exact absurd hok (Schema.validate_cons_fail g rest config hg').2
        · intro hall
          exact absurd (hall g (List.mem_cons_self g rest)) hg
  · intro pre f rest config hpre hf
    induction pre with
    | nil => exact Schema.validate_cons_fail f rest config hf
    | cons g pre' ih =>
      rw [List.cons_append,
        Schema.validate_cons_ok g _ config (hpre g (List.mem_cons_self g pre'))]
      exact ih fun x hx => hpre x (List.mem_cons_of_mem g hx)

/-- Witness for C4: the spec's concrete validation scenarios. -/
theorem C4_validator_first_error_witness :
    Schema.validate_config
      [⟨"is_active", Schema.SchemeType.Bool⟩, ⟨"username", Schema.SchemeType.String⟩]
      [("is_active", ConfigValue.Str "true"), ("username", ConfigValue.Str "Alice")]
      = .ok () ∧
    (∀ g ∈ [(⟨"is_active", Schema.SchemeType.Bool⟩ : Schema.SchemeField)],
      Schema.fieldOk [("is_active", ConfigValue.Str "false")] g = true) ∧
    Schema.fieldOk [("is_active", ConfigValue.Str "false")]
      ⟨"username", Schema.SchemeType.String⟩ = false ∧
    (Schema.validate_config
        ([⟨"is_active", Schema.SchemeType.Bool⟩] ++
          (⟨"username", Schema.SchemeType.String⟩ : Schema.SchemeField) :: [])
        [("is_active", ConfigValue.Str "false")] =
      Schema.validate_config [⟨"username", Schema.SchemeType.String⟩]
        [("is_active", ConfigValue.Str "false")] ∧
     Schema.validate_config
        ([⟨"is_active", Schema.SchemeType.Bool⟩] ++
          (⟨"username", Schema.SchemeType.String⟩ : Schema.SchemeField) :: [])
        [("is_active", ConfigValue.Str "false")] ≠ .ok ()) :=
  ⟨(C4_validator_first_error.1 _ _).mpr (by decide), by decide, by decide,
   C4_validator_first_error.2 [⟨"is_active", Schema.SchemeType.Bool⟩]
     ⟨"username", Schema.SchemeType.String⟩ []
     [("is_active", ConfigValue.Str "false")] (by decide) (by decide)⟩
